import Mathlib

/-!
Verification of the compilation-database merge core of `comp_db_hook`
(file `src/comp_db_hook.cc`).  The pure merge algorithm (path joining,
source-file discovery, entry matching/updating/appending) is embedded
directly; the operating-system surface (`read`, `write`, `ftruncate`,
`lseek`, environment lookups, the external JSON codec) is modelled by
explicit outcome parameters, since those calls live outside this
repository.
-/

/-- Embedding of `absl::StartsWith(s, pre)`: byte-level prefix test. -/
def strStartsWith (s pre : String) : Bool :=
  pre.data.isPrefixOf s.data

/-- Embedding of `absl::EndsWith(s, suf)`: byte-level suffix test. -/
def strEndsWith (s suf : String) : Bool :=
  suf.data.isSuffixOf s.data

/-- Embedding of `std::string_view::empty`. -/
def strIsEmpty (s : String) : Bool :=
  s.data.isEmpty

/-- Lexicographic comparison of character lists, the recursion underlying
`strLt`. -/
def charListLt : List Char → List Char → Bool
  | _, [] => false
  | [], _ :: _ => true
  | a :: as, b :: bs =>
    if a < b then true
    else if b < a then false
    else charListLt as bs

/-- Embedding of `std::string` operator `<` (byte-wise lexicographic
comparison), the order used by `SourceFile::Less` (lines 70-73); UTF-8 byte
order coincides with code-point order. -/
def strLt (a b : String) : Bool :=
  charListLt a.data b.data

/-- Embedding of the first `n` bytes of a string (`json.data()` truncated at
offset `n`), used to model partially completed `::write` sequences. -/
def strTake (s : String) (n : Nat) : String :=
  String.mk (s.data.take n)

/-- Embedding of `JoinPath` (comp_db_hook.cc, lines 58-66): an empty base or
an absolute file name yields the file name itself; a base with a trailing
slash is concatenated directly; otherwise a slash is interposed. -/
def JoinPath (base_directory file_name : String) : String :=
  if strIsEmpty base_directory || strStartsWith file_name "/" then file_name
  else if strEndsWith base_directory "/" then base_directory ++ file_name
  else base_directory ++ "/" ++ file_name

/-- Embedding of `SourceFile` (lines 68-92): a relative path paired with the
absolute path obtained by joining it to a base directory; the absolute path
is the identity used by `SourceFile::Less`. -/
structure SourceFile where
  relative_path : String
  absolute_path : String
deriving DecidableEq

/-- The `SourceFile` constructor (line 76-77): records the relative path and
its join with the base directory. -/
def SourceFile.make (base_directory relative_path : String) : SourceFile :=
  ⟨relative_path, JoinPath base_directory relative_path⟩

/-- Embedding of `kCompilerFlagsWithArgument` (lines 40-41). -/
def kCompilerFlagsWithArgument : List String :=
  ["-MF", "-include", "-iquote", "-isystem", "-o", "-target"]

/-- Embedding of `CommandEntry` (lines 51-54): a JSON object with three
optional fields. -/
structure CommandEntry where
  directory : Option String
  arguments : Option (List String)
  file : Option String
deriving DecidableEq

/-- Insertion into the `flat_set<SourceFile, SourceFile::Less>` (line 94),
represented as a list strictly sorted by `absolute_path`; like
`flat_set::emplace`, an element whose key is already present is NOT
inserted (the first occupant is kept). -/
def sfInsert : List SourceFile → SourceFile → List SourceFile
  | [], f => [f]
  | g :: gs, f =>
    if strLt f.absolute_path g.absolute_path then f :: g :: gs
    else if strLt g.absolute_path f.absolute_path then g :: sfInsert gs f
    else g :: gs

/-- Membership test used by `source_files.erase(file) > 0` (line 186):
`SourceFile::Less` equivalence is equality of absolute paths. -/
def sfContains (s : List SourceFile) (p : String) : Bool :=
  s.any (fun f => f.absolute_path == p)

/-- Erasure from the set by `SourceFile::Less` equivalence (line 186):
removes every element whose absolute path equals `p`. -/
def sfErase (s : List SourceFile) (p : String) : List SourceFile :=
  s.filter (fun f => f.absolute_path != p)

/-- Embedding of the scan loop of `GetCurrentFiles` (lines 161-172) over the
argument tokens after index 0: a token in the allow-list skips the next
token unconditionally, any other token starting with a dash is ignored, and
every other token is inserted into the source-file set. -/
def getCurrentFilesLoop (cwd : String) : List String → List SourceFile → List SourceFile
  | [], files => files
  | arg :: rest, files =>
    if arg ∈ kCompilerFlagsWithArgument then
      match rest with
      | [] => files
      | _ :: rest2 => getCurrentFilesLoop cwd rest2 files
    else if strStartsWith arg "-" then getCurrentFilesLoop cwd rest files
    else getCurrentFilesLoop cwd rest (sfInsert files (SourceFile.make cwd arg))

/-- Embedding of `GetCurrentFiles` (lines 161-172): the scan starts at
index 1 of the argument vector. -/
def GetCurrentFiles (cwd : String) (args : List String) : List SourceFile :=
  getCurrentFilesLoop cwd (args.drop 1) []

/-- Embedding of `MakeArguments` (lines 151-159): the resolved compiler name
becomes argument zero, followed by the forwarded arguments 1..N. -/
def MakeArguments (compiler_name : String) (argv : List String) : List String :=
  compiler_name :: argv.drop 1

/-- The entry appended for an unmatched source file (lines 190-199):
`directory` is the workspace directory, `arguments` the effective argument
vector, `file` the relative path as given on the command line. -/
def newEntry (cwd : String) (arguments : List String) (f : SourceFile) : CommandEntry :=
  { directory := some cwd, arguments := some arguments, file := some f.relative_path }

/-- Embedding of the entry-scanning loop of `UpdateEntries` (lines 177-189):
entries are processed in order; an entry without a `file` field is left
unchanged; otherwise its absolute path is the join of its `directory`
(defaulting to the workspace directory) with its `file`, and if that path is
in the working set the entry receives the effective `arguments` and the path
is erased from the set.  Returns the rewritten entries and the remaining
set. -/
def updateEntriesLoop (cwd : String) (arguments : List String) :
    List CommandEntry → List SourceFile → List CommandEntry × List SourceFile
  | [], files => ([], files)
  | e :: es, files =>
    match e.file with
    | none =>
      let r := updateEntriesLoop cwd arguments es files
      (e :: r.1, r.2)
    | some fp =>
      let abs := JoinPath (e.directory.getD cwd) fp
      if sfContains files abs then
        let r := updateEntriesLoop cwd arguments es (sfErase files abs)
        ({ e with arguments := some arguments } :: r.1, r.2)
      else
        let r := updateEntriesLoop cwd arguments es files
        (e :: r.1, r.2)

/-- Embedding of `UpdateEntries` (lines 174-201), with the workspace
directory passed explicitly (its lookup is an environment access): scan the
existing entries against the discovered source-file set, then append a new
entry for every remaining set element (in the set's sorted order). -/
def UpdateEntries (cwd : String) (arguments : List String)
    (entries : List CommandEntry) : List CommandEntry :=
  let p := updateEntriesLoop cwd arguments entries (GetCurrentFiles cwd arguments)
  p.1 ++ p.2.map (newEntry cwd arguments)

/-- Decides whether entry `e` matches absolute path `p` under workspace
directory `cwd`, exactly as the loop of `UpdateEntries` does (lines
178-186): an entry without a `file` field matches nothing. -/
def entryMatchesPath (cwd : String) (e : CommandEntry) (p : String) : Bool :=
  match e.file with
  | none => false
  | some fp => JoinPath (e.directory.getD cwd) fp == p

/-- Error kinds of the fallible operations of the pipeline (the
`absl::Status` categories produced in comp_db_hook.cc). -/
inductive RunErr where
  | openError
  | lockError
  | readError
  | cwdError
  | ftruncateError
  | lseekError
  | writeError
deriving DecidableEq

/-- Embedding of `ParseCommandFile` (lines 130-149).  The accumulated result
of the `::read` loop is modelled by `readResult` (a read failure at the I/O
layer, line 137-138, is propagated); `decode` models the external
`json::Parse`, and a decode failure is absorbed by returning the empty entry
sequence (lines 143-148). -/
def ParseCommandFile (readResult : Except RunErr String)
    (decode : String → Option (List CommandEntry)) : Except RunErr (List CommandEntry) :=
  match readResult with
  | .error e => .error e
  | .ok s =>
    match decode s with
    | some entries => .ok entries
    | none => .ok []

/-- Outcomes of the file-mutating system calls performed by `RewriteFile`:
whether `ftruncate` and `lseek` succeed, and the result of each successive
`::write` call (`some k` = `k` bytes written, `none` = failure). -/
structure IOBehavior where
  ftruncateOk : Bool
  lseekOk : Bool
  writeResults : List (Option Nat)
deriving DecidableEq

/-- The `while (written < json.size())` loop of `RewriteFile` (lines
211-218): consumes write outcomes until all bytes are written or a write
fails; each successful write advances by at most the number of bytes still
missing (POSIX `write` never writes more than requested).  Returns the
status and the total number of bytes written. -/
def writeAll (size : Nat) : Nat → List (Option Nat) → Except RunErr Unit × Nat
  | written, [] =>
    if written < size then (.error .writeError, written) else (.ok (), written)
  | written, r :: rest =>
    if written < size then
      match r with
      | none => (.error .writeError, written)
      | some k => writeAll size (written + min k (size - written)) rest
    else (.ok (), written)

/-- Embedding of `RewriteFile` (lines 203-220) as a transformer of the file
content at rest: `doc` is the serialized text to persist (the external
`json::Stringify` output plus the trailing newline), `prev` the content
before the call.  A failed `ftruncate` leaves the file unchanged, a failed
`lseek` leaves it truncated, and the write loop leaves exactly the bytes
written so far. -/
def RewriteFile (io : IOBehavior) (doc : String) (prev : String) :
    Except RunErr Unit × String :=
  if !io.ftruncateOk then (.error .ftruncateError, prev)
  else if !io.lseekOk then (.error .lseekError, "")
  else
    let r := writeAll doc.length 0 io.writeResults
    (r.1, strTake doc r.2)

/-- The external outcomes one run of `UpdateCommandFile` depends on:
open/lock results, the accumulated read, the workspace-directory lookup,
the configured compiler name, the external JSON codec, and the write-side
I/O behavior. -/
structure EnvModel where
  openResult : Except RunErr Unit
  lockResult : Except RunErr Unit
  readResult : Except RunErr String
  cwdResult : Except RunErr String
  compilerName : String
  decode : String → Option (List CommandEntry)
  stringify : List CommandEntry → String
  io : IOBehavior

/-- Embedding of `UpdateCommandFile` (lines 222-229): open, lock, parse,
build the effective arguments, merge, rewrite — each step aborting the whole
update on failure (the `RETURN_IF_ERROR` discipline).  The workspace lookup
failure inside `UpdateEntries` (line 175) aborts likewise.  Returns the
final status together with the database content at rest. -/
def UpdateCommandFile (env : EnvModel) (argv : List String) (prev : String) :
    Except RunErr Unit × String :=
  match env.openResult with
  | .error e => (.error e, prev)
  | .ok _ =>
    match env.lockResult with
    | .error e => (.error e, prev)
    | .ok _ =>
      match ParseCommandFile env.readResult env.decode with
      | .error e => (.error e, prev)
      | .ok entries =>
        match env.cwdResult with
        | .error e => (.error e, prev)
        | .ok cwd =>
          let arguments := MakeArguments env.compilerName argv
          let entries2 := UpdateEntries cwd arguments entries
          RewriteFile env.io (env.stringify entries2 ++ "\n") prev

/-- Observable control-flow events of `main` (lines 233-239). -/
inductive ProcEvent where
  | spawnCompiler
  | abortOnCheckFailure
deriving DecidableEq

/-- Embedding of `main` (lines 233-239): `CHECK_OK` aborts the process when
the database update failed, so `execvp` (the compiler replacement) runs only
after a successful update. -/
def mainRun (env : EnvModel) (argv : List String) (prev : String) : List ProcEvent :=
  match (UpdateCommandFile env argv prev).1 with
  | .error _ => [ProcEvent.abortOnCheckFailure]
  | .ok _ => [ProcEvent.spawnCompiler]

/-- The file-token sublist of the scan (lines 164-170): the tokens that the
loop classifies as source files, in scan order. -/
def fileTokens : List String → List String
  | [] => []
  | arg :: rest =>
    if arg ∈ kCompilerFlagsWithArgument then
      match rest with
      | [] => []
      | _ :: rest2 => fileTokens rest2
    else if strStartsWith arg "-" then fileTokens rest
    else arg :: fileTokens rest

example : JoinPath "/a/b" "c.cc" = "/a/b/c.cc" := by decide
example : JoinPath "/a/b/" "c.cc" = "/a/b/c.cc" := by decide
example : JoinPath "/a/b" "/x/y.cc" = "/x/y.cc" := by decide
example : JoinPath "" "c.cc" = "c.cc" := by decide
example :
    GetCurrentFiles "/ws" ["clang++", "-MF", "dep.d", "src/x.cc"] =
      [⟨"src/x.cc", "/ws/src/x.cc"⟩] := by decide
example :
    UpdateEntries "/w" ["cc", "a.cc"] [] =
      [{ directory := some "/w", arguments := some ["cc", "a.cc"],
         file := some "a.cc" }] := by decide

/-! ### Lemmas about the source-file set -/

theorem charListLt_iff : ∀ a b : List Char, charListLt a b = true ↔ a < b := by
  intro a
  induction a with
  | nil =>
    intro b
    cases b with
    | nil =>
      constructor
      · intro h
        exact Bool.noConfusion h
      · intro h
        cases h
    | cons x xs =>
      constructor
      · intro _
        exact List.Lex.nil
      · intro _
        rfl
  | cons a as ih =>
    intro b
    cases b with
    | nil =>
      constructor
      · intro h
        exact Bool.noConfusion h
      · intro h
        cases h
    | cons x xs =>
      simp only [charListLt]
      by_cases h1 : a < x
      · simp only [if_pos h1]
        constructor
        · intro _
          exact List.Lex.rel h1
        · intro _
          trivial
      · by_cases h2 : x < a
        · simp only [if_neg h1, if_pos h2]
          constructor
          · intro h
            exact Bool.noConfusion h
          · intro h
            cases h with
            | cons h3 => exact absurd h2 (lt_irrefl _)
            | rel h3 => exact absurd h3 h1
        · have hax : a = x := le_antisymm (not_lt.mp h2) (not_lt.mp h1)
          subst hax
          simp only [if_neg h1, if_neg h2]
          constructor
          · intro h
            exact List.Lex.cons ((ih xs).mp h)
          · intro h
            cases h with
            | cons h3 => exact (ih xs).mpr h3
            | rel h3 => exact absurd h3 h1

theorem strLt_iff (a b : String) : strLt a b = true ↔ a < b := by
  rw [String.lt_iff_toList_lt]
  exact charListLt_iff a.data b.data

theorem sfInsert_mem {s : List SourceFile} {g f : SourceFile}
    (h : f ∈ sfInsert s g) : f ∈ s ∨ f = g := by
  induction s with
  | nil => simpa [sfInsert] using h
  | cons a as ih =>
    simp only [sfInsert, strLt_iff] at h
    by_cases h1 : g.absolute_path < a.absolute_path
    · simp [h1] at h
      rcases h with h | h | h
      · exact Or.inr h
      · exact Or.inl (by simp [h])
      · exact Or.inl (by simp [h])
    · by_cases h2 : a.absolute_path < g.absolute_path
      · simp [h1, h2] at h
        rcases h with h | h
        · exact Or.inl (by simp [h])
        · rcases ih h with h3 | h3
          · exact Or.inl (by simp [h3])
          · exact Or.inr h3
      · simp [h1, h2] at h
        rcases h with h | h
        · exact Or.inl (by simp [h])
        · exact Or.inl (by simp [h])

theorem mem_sfInsert_of_mem {s : List SourceFile} {f : SourceFile}
    (h : f ∈ s) (g : SourceFile) : f ∈ sfInsert s g := by
  induction s with
  | nil => cases h
  | cons a as ih =>
    simp only [sfInsert, strLt_iff]
    by_cases h1 : g.absolute_path < a.absolute_path
    · simp [h1]
      rcases List.mem_cons.mp h with h2 | h2
      · exact Or.inr (Or.inl h2)
      · exact Or.inr (Or.inr h2)
    · by_cases h2 : a.absolute_path < g.absolute_path
      · simp [h1, h2]
        rcases List.mem_cons.mp h with h3 | h3
        · exact Or.inl h3
        · exact Or.inr (ih h3)
      · simpa [h1, h2] using h

theorem sfInsert_pairwise {s : List SourceFile}
    (hs : s.Pairwise (fun a b => a.absolute_path < b.absolute_path))
    (g : SourceFile) :
    (sfInsert s g).Pairwise (fun a b => a.absolute_path < b.absolute_path) := by
  induction s with
  | nil => simp [sfInsert]
  | cons a as ih =>
    rcases List.pairwise_cons.mp hs with ⟨ha, has⟩
    simp only [sfInsert, strLt_iff]
    by_cases h1 : g.absolute_path < a.absolute_path
    · simp only [if_pos h1]
      refine List.pairwise_cons.mpr ⟨?_, hs⟩
      intro b hb
      rcases List.mem_cons.mp hb with h2 | h2
      · simpa [h2] using h1
      · exact lt_trans h1 (ha b h2)
    · by_cases h2 : a.absolute_path < g.absolute_path
      · simp only [if_neg h1, if_pos h2]
        refine List.pairwise_cons.mpr ⟨?_, ih has⟩
        intro b hb
        rcases sfInsert_mem hb with h3 | h3
        · exact ha b h3
        · simpa [h3] using h2
      · simpa [h1, h2] using hs

theorem sfInsert_eq_of_mem {s : List SourceFile}
    (hs : s.Pairwise (fun a b => a.absolute_path < b.absolute_path))
    {g : SourceFile} (h : g.absolute_path ∈ s.map SourceFile.absolute_path) :
    sfInsert s g = s := by
  induction s with
  | nil => simp at h
  | cons a as ih =>
    rcases List.pairwise_cons.mp hs with ⟨ha, has⟩
    simp only [List.map_cons, List.mem_cons] at h
    simp only [sfInsert, strLt_iff]
    by_cases h1 : g.absolute_path < a.absolute_path
    · exfalso
      rcases h with h2 | h2
      · exact lt_irrefl _ (h2 ▸ h1)
      · rcases List.mem_map.mp h2 with ⟨b, hb, hb2⟩
        exact lt_irrefl _ (lt_trans h1 (hb2 ▸ ha b hb))
    · by_cases h2 : a.absolute_path < g.absolute_path
      · rcases h with h3 | h3
        · exact absurd h3.symm (ne_of_lt h2)
        · simp [h1, h2, ih has h3]
      · simp [h1, h2]

theorem sfContains_iff {s : List SourceFile} {p : String} :
    sfContains s p = true ↔ p ∈ s.map SourceFile.absolute_path := by
  constructor
  · intro h
    rcases List.any_eq_true.mp h with ⟨f, hf, hfp⟩
    exact List.mem_map.mpr ⟨f, hf, by simpa using hfp⟩
  · intro h
    rcases List.mem_map.mp h with ⟨f, hf, hfp⟩
    exact List.any_eq_true.mpr ⟨f, hf, by simpa using hfp⟩

theorem sfErase_sublist (s : List SourceFile) (p : String) :
    List.Sublist (sfErase s p) s :=
  List.filter_sublist s

theorem mem_sfErase {s : List SourceFile} {p : String} {f : SourceFile} :
    f ∈ sfErase s p ↔ f ∈ s ∧ f.absolute_path ≠ p := by
  simp [sfErase, List.mem_filter]

theorem sfErase_not_mem (s : List SourceFile) (p : String) :
    p ∉ (sfErase s p).map SourceFile.absolute_path := by
  intro h
  rcases List.mem_map.mp h with ⟨f, hf, hf2⟩
  exact (mem_sfErase.mp hf).2 hf2

theorem sfErase_map_subset {s : List SourceFile} {p q : String}
    (h : q ∈ (sfErase s p).map SourceFile.absolute_path) :
    q ∈ s.map SourceFile.absolute_path := by
  rcases List.mem_map.mp h with ⟨f, hf, hf2⟩
  exact List.mem_map.mpr ⟨f, (mem_sfErase.mp hf).1, hf2⟩

theorem sfErase_eq_of_pairwise_head {f : SourceFile} {R : List SourceFile}
    (h : ∀ g ∈ R, f.absolute_path ≠ g.absolute_path) :
    sfErase (f :: R) f.absolute_path = R := by
  simp only [sfErase, List.filter_cons]
  have h1 : (f.absolute_path != f.absolute_path) = false := by simp
  rw [h1]
  simp only [Bool.false_eq_true, if_false]
  exact List.filter_eq_self.mpr (fun g hg => by simpa using (h g hg).symm)

/-! ### The scan loop as a fold over its file tokens -/

theorem mem_sfInsert_self {s : List SourceFile} {g : SourceFile}
    (h : g.absolute_path ∉ s.map SourceFile.absolute_path) : g ∈ sfInsert s g := by
  induction s with
  | nil => simp [sfInsert]
  | cons a as ih =>
    simp only [List.map_cons, List.mem_cons, not_or] at h
    simp only [sfInsert, strLt_iff]
    by_cases h1 : g.absolute_path < a.absolute_path
    · simp [h1]
    · by_cases h2 : a.absolute_path < g.absolute_path
      · simp only [if_neg h1, if_pos h2, List.mem_cons]
        exact Or.inr (ih h.2)
      · exact absurd (le_antisymm (not_lt.mp h1) (not_lt.mp h2)).symm h.1

theorem getCurrentFilesLoop_eq_foldl (cwd : String) (toks : List String) :
    ∀ files, getCurrentFilesLoop cwd toks files =
      (fileTokens toks).foldl (fun s t => sfInsert s (SourceFile.make cwd t)) files := by
  induction toks using fileTokens.induct with
  | case1 => intro files; rfl
  | case2 arg harg => intro files; simp [getCurrentFilesLoop, fileTokens, harg]
  | case3 arg harg nxt rest2 ih =>
    intro files
    simp [getCurrentFilesLoop, fileTokens, harg, ih]
  | case4 arg rest2 harg hdash ih =>
    intro files
    rw [getCurrentFilesLoop.eq_def, fileTokens.eq_def]
    simp [harg, hdash, ih]
  | case5 arg rest2 harg hdash ih =>
    intro files
    rw [getCurrentFilesLoop.eq_def, fileTokens.eq_def]
    simp [harg, hdash, ih]

theorem foldl_sfInsert_pairwise (cwd : String) (ts : List String) :
    ∀ s : List SourceFile,
      s.Pairwise (fun a b => a.absolute_path < b.absolute_path) →
      ((ts.foldl (fun s t => sfInsert s (SourceFile.make cwd t)) s).Pairwise
        (fun a b => a.absolute_path < b.absolute_path)) := by
  induction ts with
  | nil => intro s hs; simpa using hs
  | cons t ts ih =>
    intro s hs
    exact ih _ (sfInsert_pairwise hs _)

theorem foldl_sfInsert_abs (cwd : String) (ts : List String) :
    ∀ s : List SourceFile,
      (∀ f ∈ s, JoinPath cwd f.relative_path = f.absolute_path) →
      ∀ f ∈ ts.foldl (fun s t => sfInsert s (SourceFile.make cwd t)) s,
        JoinPath cwd f.relative_path = f.absolute_path := by
  induction ts with
  | nil => intro s hs; simpa using hs
  | cons t ts ih =>
    intro s hs
    refine ih _ ?_
    intro f hf
    rcases sfInsert_mem hf with h | h
    · exact hs f h
    · simp [h, SourceFile.make]

theorem foldl_sfInsert_find (cwd : String) (ts : List String) :
    ∀ s : List SourceFile,
      s.Pairwise (fun a b => a.absolute_path < b.absolute_path) →
      ∀ f ∈ ts.foldl (fun s t => sfInsert s (SourceFile.make cwd t)) s,
        f ∈ s ∨
          (f.absolute_path ∉ s.map SourceFile.absolute_path ∧
            List.find? (fun t => JoinPath cwd t == f.absolute_path) ts =
              some f.relative_path) := by
  induction ts with
  | nil =>
    intro s _ f hf
    exact Or.inl (by simpa using hf)
  | cons t ts ih =>
    intro s hs f hf
    simp only [List.foldl_cons] at hf
    rcases ih _ (sfInsert_pairwise hs _) f hf with h | h
    · by_cases hmem : (SourceFile.make cwd t).absolute_path ∈ s.map SourceFile.absolute_path
      · rw [sfInsert_eq_of_mem hs hmem] at h
        exact Or.inl h
      · rcases sfInsert_mem h with h2 | h2
        · exact Or.inl h2
        · refine Or.inr ⟨by simpa [h2] using hmem, ?_⟩
          have hpred : (JoinPath cwd t == f.absolute_path) = true := by
            simp [h2, SourceFile.make]
          simp [List.find?, hpred, h2, SourceFile.make]
    · rcases h with ⟨hnot, hfind⟩
      have hins : (SourceFile.make cwd t).absolute_path ∈
          (sfInsert s (SourceFile.make cwd t)).map SourceFile.absolute_path := by
        by_cases hmem : (SourceFile.make cwd t).absolute_path ∈ s.map SourceFile.absolute_path
        · rw [sfInsert_eq_of_mem hs hmem]; exact hmem
        · exact List.mem_map.mpr ⟨_, mem_sfInsert_self hmem, rfl⟩
      have hsub : f.absolute_path ∉ s.map SourceFile.absolute_path := by
        intro hc
        exact hnot (by
          rcases List.mem_map.mp hc with ⟨g, hg, hg2⟩
          exact List.mem_map.mpr ⟨g, mem_sfInsert_of_mem hg _, hg2⟩)
      have hne : (JoinPath cwd t == f.absolute_path) = false := by
        have : JoinPath cwd t ≠ f.absolute_path := by
          intro he
          apply hnot
          have : (SourceFile.make cwd t).absolute_path = f.absolute_path := by
            simpa [SourceFile.make] using he
          exact this ▸ hins
        simpa using this
      refine Or.inr ⟨hsub, ?_⟩
      simp [List.find?, hne, hfind]

/-! ### Invariants of the discovered source-file set -/

theorem getCurrentFiles_pairwise (cwd : String) (args : List String) :
    (GetCurrentFiles cwd args).Pairwise
      (fun a b => a.absolute_path < b.absolute_path) := by
  rw [GetCurrentFiles, getCurrentFilesLoop_eq_foldl]
  exact foldl_sfInsert_pairwise cwd _ [] (by simp)

theorem getCurrentFiles_abs (cwd : String) (args : List String) :
    ∀ f ∈ GetCurrentFiles cwd args,
      JoinPath cwd f.relative_path = f.absolute_path := by
  rw [GetCurrentFiles, getCurrentFilesLoop_eq_foldl]
  exact foldl_sfInsert_abs cwd _ [] (by simp)

theorem getCurrentFiles_find (cwd : String) (args : List String) :
    ∀ f ∈ GetCurrentFiles cwd args,
      List.find? (fun t => JoinPath cwd t == f.absolute_path)
          (fileTokens (args.drop 1)) = some f.relative_path := by
  intro f hf
  rw [GetCurrentFiles, getCurrentFilesLoop_eq_foldl] at hf
  rcases foldl_sfInsert_find cwd _ [] (by simp) f hf with h | h
  · cases h
  · exact h.2

/-! ### Lemmas about the entry-merging loop -/

theorem updateEntriesLoop_length (cwd : String) (arguments : List String)
    (es : List CommandEntry) :
    ∀ files, (updateEntriesLoop cwd arguments es files).1.length = es.length := by
  induction es with
  | nil => intro files; rfl
  | cons e es ih =>
    intro files
    cases hfile : e.file with
    | none => simp [updateEntriesLoop, hfile, ih]
    | some fp =>
      by_cases hc : sfContains files (JoinPath (e.directory.getD cwd) fp)
      · simp [updateEntriesLoop, hfile, hc, ih]
      · simp [updateEntriesLoop, hfile, hc, ih]

theorem updateEntriesLoop_append (cwd : String) (arguments : List String)
    (l1 l2 : List CommandEntry) :
    ∀ files, updateEntriesLoop cwd arguments (l1 ++ l2) files =
      ((updateEntriesLoop cwd arguments l1 files).1 ++
        (updateEntriesLoop cwd arguments l2
          (updateEntriesLoop cwd arguments l1 files).2).1,
       (updateEntriesLoop cwd arguments l2
          (updateEntriesLoop cwd arguments l1 files).2).2) := by
  induction l1 with
  | nil => intro files; simp [updateEntriesLoop]
  | cons e es ih =>
    intro files
    cases hfile : e.file with
    | none => simp [updateEntriesLoop, hfile, ih]
    | some fp =>
      by_cases hc : sfContains files (JoinPath (e.directory.getD cwd) fp)
      · simp [updateEntriesLoop, hfile, hc, ih]
      · simp [updateEntriesLoop, hfile, hc, ih]

theorem updateEntriesLoop_sublist (cwd : String) (arguments : List String)
    (es : List CommandEntry) :
    ∀ files, List.Sublist (updateEntriesLoop cwd arguments es files).2 files := by
  induction es with
  | nil => intro files; exact List.Sublist.refl files
  | cons e es ih =>
    intro files
    cases hfile : e.file with
    | none => simpa [updateEntriesLoop, hfile] using ih files
    | some fp =>
      by_cases hc : sfContains files (JoinPath (e.directory.getD cwd) fp)
      · simp only [updateEntriesLoop, hfile, hc, if_pos]
        exact (ih _).trans (sfErase_sublist _ _)
      · simpa [updateEntriesLoop, hfile, hc] using ih files

theorem updateEntriesLoop_refold (cwd : String) (arguments : List String)
    (es : List CommandEntry) :
    ∀ files,
      updateEntriesLoop cwd arguments
        (updateEntriesLoop cwd arguments es files).1 files =
      updateEntriesLoop cwd arguments es files := by
  induction es with
  | nil => intro files; rfl
  | cons e es ih =>
    intro files
    cases hfile : e.file with
    | none =>
      simp only [updateEntriesLoop, hfile]
      rw [ih files]
    | some fp =>
      by_cases hc : sfContains files (JoinPath (e.directory.getD cwd) fp) = true
      · simp only [updateEntriesLoop, hfile, hc, if_true]
        rw [ih (sfErase files (JoinPath (e.directory.getD cwd) fp))]
      · have hc2 : sfContains files (JoinPath (e.directory.getD cwd) fp) = false := by
          simpa using hc
        simp only [updateEntriesLoop, hfile, hc2, Bool.false_eq_true, if_false]
        rw [ih files]

theorem updateEntriesLoop_drain (cwd : String) (arguments : List String) :
    ∀ R : List SourceFile,
      (∀ f ∈ R, JoinPath cwd f.relative_path = f.absolute_path) →
      R.Pairwise (fun a b => a.absolute_path ≠ b.absolute_path) →
      updateEntriesLoop cwd arguments (R.map (newEntry cwd arguments)) R =
        (R.map (newEntry cwd arguments), []) := by
  intro R
  induction R with
  | nil => intro _ _; rfl
  | cons f R ih =>
    intro habs hpw
    rcases List.pairwise_cons.mp hpw with ⟨hf, hR⟩
    have habsf : JoinPath cwd f.relative_path = f.absolute_path :=
      habs f (List.mem_cons_self f R)
    have hcont : sfContains (f :: R) f.absolute_path = true := by
      simp [sfContains]
    have herase : sfErase (f :: R) f.absolute_path = R :=
      sfErase_eq_of_pairwise_head hf
    simp only [List.map_cons, updateEntriesLoop, newEntry, Option.getD_some, habsf,
      hcont, if_true, herase]
    rw [ih (fun g hg => habs g (List.mem_cons_of_mem f hg)) hR]

theorem updateEntriesLoop_rem_eq_filter (cwd : String) (arguments : List String)
    (es : List CommandEntry) :
    ∀ files, (updateEntriesLoop cwd arguments es files).2 =
      files.filter
        (fun f => !(es.any (fun e => entryMatchesPath cwd e f.absolute_path))) := by
  induction es with
  | nil =>
    intro files
    simp only [updateEntriesLoop, List.any_nil, Bool.not_false]
    exact (List.filter_eq_self.mpr (fun a _ => rfl)).symm
  | cons e es ih =>
    intro files
    cases hfile : e.file with
    | none =>
      simp only [updateEntriesLoop, hfile, ih files]
      refine List.filter_congr ?_
      intro f _
      simp [entryMatchesPath, hfile]
    | some fp =>
      by_cases hc : sfContains files (JoinPath (e.directory.getD cwd) fp) = true
      · simp only [updateEntriesLoop, hfile, hc, if_true, ih]
        rw [sfErase, List.filter_filter]
        refine List.filter_congr ?_
        intro f _
        simp only [List.any_cons, Bool.not_or, entryMatchesPath, hfile]
        rcases eq_or_ne (JoinPath (e.directory.getD cwd) fp) f.absolute_path with h | h
        · simp [h, bne]
        · simp [bne, beq_eq_false_iff_ne.mpr h, beq_eq_false_iff_ne.mpr (Ne.symm h)]
      · have hc2 : sfContains files (JoinPath (e.directory.getD cwd) fp) = false := by
          simpa using hc
        simp only [updateEntriesLoop, hfile, hc2, Bool.false_eq_true, if_false, ih files]
        refine List.filter_congr ?_
        intro f hfmem
        have hne : JoinPath (e.directory.getD cwd) fp ≠ f.absolute_path := by
          intro h
          apply hc
          refine sfContains_iff.mpr ?_
          rw [h]
          exact List.mem_map.mpr ⟨f, hfmem, rfl⟩
        simp [entryMatchesPath, hfile, beq_eq_false_iff_ne.mpr hne]

theorem updateEntriesLoop_forall2 (cwd : String) (arguments : List String)
    (S0 : List SourceFile) (es : List CommandEntry) :
    ∀ files : List SourceFile,
      (∀ q ∈ files.map SourceFile.absolute_path, q ∈ S0.map SourceFile.absolute_path) →
      List.Forall₂ (fun e eo =>
          eo.directory = e.directory ∧ eo.file = e.file ∧
          (eo = e ∨ (∃ fp, e.file = some fp ∧
            eo = { e with arguments := some arguments } ∧
            JoinPath (e.directory.getD cwd) fp ∈ S0.map SourceFile.absolute_path)) ∧
          (e.file = none → eo = e) ∧
          (∀ fp, e.file = some fp →
            JoinPath (e.directory.getD cwd) fp ∉ S0.map SourceFile.absolute_path →
            eo = e))
        es (updateEntriesLoop cwd arguments es files).1 := by
  induction es with
  | nil => intro files _; exact List.Forall₂.nil
  | cons e es ih =>
    intro files hsub
    cases hfile : e.file with
    | none =>
      simp only [updateEntriesLoop, hfile]
      refine List.Forall₂.cons ?_ (ih files hsub)
      exact ⟨rfl, rfl, Or.inl rfl, fun _ => rfl, fun _ _ _ => rfl⟩
    | some fp =>
      by_cases hc : sfContains files (JoinPath (e.directory.getD cwd) fp) = true
      · simp only [updateEntriesLoop, hfile, hc, if_true]
        have habs : JoinPath (e.directory.getD cwd) fp ∈ S0.map SourceFile.absolute_path :=
          hsub _ (sfContains_iff.mp hc)
        refine List.Forall₂.cons ?_ (ih _ ?_)
        · refine ⟨rfl, by simp [hfile], Or.inr ⟨fp, hfile, by rw [hfile], habs⟩, ?_, ?_⟩
          · intro h
            exact Option.noConfusion (hfile.symm.trans h)
          · intro fp2 h2 hnot
            have h3 : fp = fp2 := Option.some_inj.mp (hfile.symm.trans h2)
            subst h3
            exact absurd habs hnot
        · intro q hq
          exact hsub q (sfErase_map_subset hq)
      · have hc2 : sfContains files (JoinPath (e.directory.getD cwd) fp) = false := by
          simpa using hc
        simp only [updateEntriesLoop, hfile, hc2, Bool.false_eq_true, if_false]
        refine List.Forall₂.cons ?_ (ih files hsub)
        exact ⟨rfl, rfl, Or.inl rfl, fun _ => rfl, fun _ _ _ => rfl⟩

theorem updateEntriesLoop_count_zero (cwd : String) (arguments : List String)
    (p : String) (es : List CommandEntry) :
    ∀ files : List SourceFile,
      p ∉ files.map SourceFile.absolute_path →
      ((es.zip (updateEntriesLoop cwd arguments es files).1).countP
          (fun q => decide (q.2 ≠ q.1) && entryMatchesPath cwd q.1 p) = 0 ∧
        p ∉ ((updateEntriesLoop cwd arguments es files).2).map SourceFile.absolute_path) := by
  induction es with
  | nil =>
    intro files hp
    exact ⟨rfl, hp⟩
  | cons e es ih =>
    intro files hp
    cases hfile : e.file with
    | none =>
      simp only [updateEntriesLoop, hfile, List.zip_cons_cons, List.countP_cons]
      have hpred : (decide ((e : CommandEntry) ≠ e) && entryMatchesPath cwd e p) = false := by
        simp
      rcases ih files hp with ⟨h1, h2⟩
      refine ⟨?_, h2⟩
      simp only [hpred, Bool.false_eq_true, if_false, Nat.add_zero]
      exact h1
    | some fp =>
      by_cases hc : sfContains files (JoinPath (e.directory.getD cwd) fp) = true
      · have habs : JoinPath (e.directory.getD cwd) fp ∈ files.map SourceFile.absolute_path :=
          sfContains_iff.mp hc
        have hne : JoinPath (e.directory.getD cwd) fp ≠ p := by
          intro h; exact hp (h ▸ habs)
        have hperase : p ∉ (sfErase files (JoinPath (e.directory.getD cwd) fp)).map
            SourceFile.absolute_path := by
          intro h; exact hp (sfErase_map_subset h)
        rcases ih _ hperase with ⟨h1, h2⟩
        simp only [updateEntriesLoop, hfile, hc, if_true, List.zip_cons_cons,
          List.countP_cons]
        refine ⟨?_, h2⟩
        have hmatch : entryMatchesPath cwd e p = false := by
          simp [entryMatchesPath, hfile, beq_eq_false_iff_ne.mpr hne]
        simp only [hmatch, Bool.and_false, Bool.false_eq_true, if_false, Nat.add_zero]
        exact h1
      · have hc2 : sfContains files (JoinPath (e.directory.getD cwd) fp) = false := by
          simpa using hc
        rcases ih files hp with ⟨h1, h2⟩
        simp only [updateEntriesLoop, hfile, hc2, Bool.false_eq_true, if_false,
          List.zip_cons_cons, List.countP_cons]
        refine ⟨?_, h2⟩
        have hpred : (decide ((e : CommandEntry) ≠ e) && entryMatchesPath cwd e p) = false := by
          simp
        simp only [hpred, Bool.false_eq_true, if_false, Nat.add_zero]
        exact h1

theorem updateEntriesLoop_count_le_one (cwd : String) (arguments : List String)
    (p : String) (es : List CommandEntry) :
    ∀ files : List SourceFile,
      ((es.zip (updateEntriesLoop cwd arguments es files).1).countP
          (fun q => decide (q.2 ≠ q.1) && entryMatchesPath cwd q.1 p) ≤ 1 ∧
        (1 ≤ (es.zip (updateEntriesLoop cwd arguments es files).1).countP
            (fun q => decide (q.2 ≠ q.1) && entryMatchesPath cwd q.1 p) →
          p ∉ ((updateEntriesLoop cwd arguments es files).2).map
            SourceFile.absolute_path)) := by
  induction es with
  | nil =>
    intro files
    exact ⟨Nat.zero_le 1, fun h => absurd h (by simp)⟩
  | cons e es ih =>
    intro files
    cases hfile : e.file with
    | none =>
      rcases ih files with ⟨h1, h2⟩
      simp only [updateEntriesLoop, hfile, List.zip_cons_cons, List.countP_cons]
      have hpred : (decide ((e : CommandEntry) ≠ e) && entryMatchesPath cwd e p) = false := by
        simp
      simp only [hpred, Bool.false_eq_true, if_false, Nat.add_zero]
      exact ⟨h1, h2⟩
    | some fp =>
      by_cases hc : sfContains files (JoinPath (e.directory.getD cwd) fp) = true
      · by_cases hp : JoinPath (e.directory.getD cwd) fp = p
        · have hperase : p ∉ (sfErase files (JoinPath (e.directory.getD cwd) fp)).map
              SourceFile.absolute_path := by
            rw [hp]
            exact sfErase_not_mem files p
          rcases updateEntriesLoop_count_zero cwd arguments p es _ hperase with ⟨h1, h2⟩
          simp only [updateEntriesLoop, hfile, hc, if_true, List.zip_cons_cons,
            List.countP_cons, h1]
          constructor
          · split <;> omega
          · intro _; exact h2
        · rcases ih (sfErase files (JoinPath (e.directory.getD cwd) fp)) with ⟨h1, h2⟩
          simp only [updateEntriesLoop, hfile, hc, if_true, List.zip_cons_cons,
            List.countP_cons]
          have hmatch : entryMatchesPath cwd e p = false := by
            simp [entryMatchesPath, hfile, beq_eq_false_iff_ne.mpr hp]
          simp only [hmatch, Bool.and_false, Bool.false_eq_true, if_false, Nat.add_zero]
          exact ⟨h1, h2⟩
      · have hc2 : sfContains files (JoinPath (e.directory.getD cwd) fp) = false := by
          simpa using hc
        rcases ih files with ⟨h1, h2⟩
        simp only [updateEntriesLoop, hfile, hc2, Bool.false_eq_true, if_false,
          List.zip_cons_cons, List.countP_cons]
        have hpred : (decide ((e : CommandEntry) ≠ e) && entryMatchesPath cwd e p) = false := by
          simp
        simp only [hpred, Bool.false_eq_true, if_false, Nat.add_zero]
        exact ⟨h1, h2⟩

/-! ### Lemmas about the write loop and path joining -/

theorem writeAll_ok_length (size : Nat) (sched : List (Option Nat)) :
    ∀ w, (writeAll size w sched).1 = Except.ok () → size ≤ (writeAll size w sched).2 := by
  induction sched with
  | nil =>
    intro w h
    by_cases hw : w < size
    · simp [writeAll, hw] at h
    · simpa [writeAll, hw] using not_lt.mp hw
  | cons r rest ih =>
    intro w h
    by_cases hw : w < size
    · cases r with
      | none => simp [writeAll, hw] at h
      | some k =>
        simp only [writeAll, if_pos hw] at h ⊢
        exact ih _ h
    · simpa [writeAll, hw] using not_lt.mp hw

theorem rewriteFile_complete (io : IOBehavior) (doc prev : String)
    (h : (RewriteFile io doc prev).1 = Except.ok ()) :
    (RewriteFile io doc prev).2 = doc := by
  cases hft : io.ftruncateOk with
  | false => simp [RewriteFile, hft] at h
  | true =>
    cases hls : io.lseekOk with
    | false => simp [RewriteFile, hft, hls] at h
    | true =>
      simp only [RewriteFile, hft, hls, Bool.not_true, Bool.false_eq_true, if_false] at h ⊢
      have hlen : doc.length ≤ (writeAll doc.length 0 io.writeResults).2 :=
        writeAll_ok_length doc.length io.writeResults 0 h
      simp only [strTake]
      rw [List.take_of_length_le hlen]

theorem rewriteFile_at_rest (io : IOBehavior) (doc prev : String) :
    (RewriteFile io doc prev).2 = prev ∨
      ∃ t, (RewriteFile io doc prev).2.data ++ t = doc.data := by
  cases hft : io.ftruncateOk with
  | false =>
    left
    simp [RewriteFile, hft]
  | true =>
    cases hls : io.lseekOk with
    | false =>
      right
      refine ⟨doc.data, ?_⟩
      simp [RewriteFile, hft, hls]
    | true =>
      right
      refine ⟨doc.data.drop (writeAll doc.length 0 io.writeResults).2, ?_⟩
      simp [RewriteFile, hft, hls, strTake, List.take_append_drop]

theorem joinPath_absolute (base file : String)
    (h : strStartsWith file "/" = true) : JoinPath base file = file := by
  simp [JoinPath, h]

theorem joinPath_trailing_slash (base file : String)
    (h1 : strIsEmpty base = false) (h2 : strEndsWith base "/" = false) :
    JoinPath (base ++ "/") file = JoinPath base file := by
  have hdata : (base ++ "/").data = base.data ++ ['/'] := by
    rw [String.data_append]
  have he : strIsEmpty (base ++ "/") = false := by
    simp [strIsEmpty, hdata]
  have hs : strEndsWith (base ++ "/") "/" = true := by
    show (("/" : String).data).isSuffixOf (base ++ "/").data = true
    rw [hdata]
    show List.isPrefixOf (List.reverse ['/']) (List.reverse (base.data ++ ['/'])) = true
    rw [List.reverse_append]
    simp [List.isPrefixOf]
  cases hf : strStartsWith file "/" with
  | true => simp [JoinPath, he, h1, hf]
  | false => simp [JoinPath, he, h1, h2, hf, hs]

/-! ### Claim theorems -/

/-- Claim C1 (merge contract): the merge result is the scanned entries
followed by one new entry per remaining source file (built by `newEntry`:
`directory` = workspace directory, `arguments` = effective arguments,
`file` = the relative path as given); every scanned entry is either
unchanged or, when its joined absolute path (its `directory` defaulting to
the workspace directory, joined with its `file`) is among the discovered
paths, has exactly its `arguments` replaced by the effective arguments; for
every absolute path at most one existing entry is updated, an updated path
is never also appended, and every appended file comes from the discovered
set. -/
theorem merge_contract (cwd : String) (arguments : List String)
    (es : List CommandEntry) :
    UpdateEntries cwd arguments es =
      (updateEntriesLoop cwd arguments es (GetCurrentFiles cwd arguments)).1 ++
        ((updateEntriesLoop cwd arguments es (GetCurrentFiles cwd arguments)).2).map
          (newEntry cwd arguments) ∧
    List.Forall₂ (fun e eo =>
        eo = e ∨ (∃ fp, e.file = some fp ∧
          eo = { e with arguments := some arguments } ∧
          JoinPath (e.directory.getD cwd) fp ∈
            (GetCurrentFiles cwd arguments).map SourceFile.absolute_path))
      es (updateEntriesLoop cwd arguments es (GetCurrentFiles cwd arguments)).1 ∧
    (∀ p : String,
      ((es.zip (updateEntriesLoop cwd arguments es (GetCurrentFiles cwd arguments)).1).countP
        (fun q => decide (q.2 ≠ q.1) && entryMatchesPath cwd q.1 p)) ≤ 1) ∧
    (∀ p : String,
      1 ≤ ((es.zip
          (updateEntriesLoop cwd arguments es (GetCurrentFiles cwd arguments)).1).countP
        (fun q => decide (q.2 ≠ q.1) && entryMatchesPath cwd q.1 p)) →
      p ∉ ((updateEntriesLoop cwd arguments es (GetCurrentFiles cwd arguments)).2).map
        SourceFile.absolute_path) ∧
    (∀ f ∈ (updateEntriesLoop cwd arguments es (GetCurrentFiles cwd arguments)).2,
      f ∈ GetCurrentFiles cwd arguments) := by
  refine ⟨rfl, ?_, ?_, ?_, ?_⟩
  · exact (updateEntriesLoop_forall2 cwd arguments (GetCurrentFiles cwd arguments) es
      (GetCurrentFiles cwd arguments) (fun q hq => hq)).imp
      (fun a b h => h.2.2.1)
  · intro p
    exact (updateEntriesLoop_count_le_one cwd arguments p es
      (GetCurrentFiles cwd arguments)).1
  · intro p
    exact (updateEntriesLoop_count_le_one cwd arguments p es
      (GetCurrentFiles cwd arguments)).2
  · intro f hf
    exact (updateEntriesLoop_sublist cwd arguments es
      (GetCurrentFiles cwd arguments)).mem hf

/-- Claim C2 (idempotence): merging a second time with the identical
argument vector and workspace directory reproduces the database exactly, so
every entry keeps identical `arguments`, `directory` and `file`, and the
entry count does not grow on the second run. -/
theorem merge_idempotent (cwd : String) (arguments : List String)
    (es : List CommandEntry) :
    UpdateEntries cwd arguments (UpdateEntries cwd arguments es) =
      UpdateEntries cwd arguments es := by
  have hS_pw := getCurrentFiles_pairwise cwd arguments
  have hS_abs := getCurrentFiles_abs cwd arguments
  have hsub := updateEntriesLoop_sublist cwd arguments es (GetCurrentFiles cwd arguments)
  have hR_abs : ∀ f ∈ (updateEntriesLoop cwd arguments es (GetCurrentFiles cwd arguments)).2,
      JoinPath cwd f.relative_path = f.absolute_path :=
    fun f hf => hS_abs f (hsub.mem hf)
  have hR_ne :
      ((updateEntriesLoop cwd arguments es (GetCurrentFiles cwd arguments)).2).Pairwise
        (fun a b => a.absolute_path ≠ b.absolute_path) :=
    (hS_pw.sublist hsub).imp (fun h => ne_of_lt h)
  have hdrain := updateEntriesLoop_drain cwd arguments _ hR_abs hR_ne
  have happ := updateEntriesLoop_append cwd arguments
    (updateEntriesLoop cwd arguments es (GetCurrentFiles cwd arguments)).1
    (((updateEntriesLoop cwd arguments es (GetCurrentFiles cwd arguments)).2).map
      (newEntry cwd arguments))
    (GetCurrentFiles cwd arguments)
  have href := updateEntriesLoop_refold cwd arguments es (GetCurrentFiles cwd arguments)
  simp only [UpdateEntries, happ, href, hdrain, List.map_nil, List.append_nil]

/-- Claim C3 (source-file classification): in the scan from index 1 onward,
an allow-list token skips the following token unconditionally, any other
dash-prefixed token is ignored, any other token is added to the source-file
set, and on `["clang++", "-MF", "dep.d", "src/x.cc"]` the discovered set is
exactly the single file `src/x.cc`. -/
theorem source_file_classification :
    (∀ (cwd flag nxt : String) (rest : List String) (files : List SourceFile),
      flag ∈ kCompilerFlagsWithArgument →
      getCurrentFilesLoop cwd (flag :: nxt :: rest) files =
        getCurrentFilesLoop cwd rest files) ∧
    (∀ (cwd arg : String) (rest : List String) (files : List SourceFile),
      arg ∉ kCompilerFlagsWithArgument → strStartsWith arg "-" = true →
      getCurrentFilesLoop cwd (arg :: rest) files =
        getCurrentFilesLoop cwd rest files) ∧
    (∀ (cwd arg : String) (rest : List String) (files : List SourceFile),
      arg ∉ kCompilerFlagsWithArgument → strStartsWith arg "-" = false →
      getCurrentFilesLoop cwd (arg :: rest) files =
        getCurrentFilesLoop cwd rest (sfInsert files (SourceFile.make cwd arg))) ∧
    GetCurrentFiles "/ws" ["clang++", "-MF", "dep.d", "src/x.cc"] =
      [⟨"src/x.cc", "/ws/src/x.cc"⟩] := by
  refine ⟨?_, ?_, ?_, by decide⟩
  · intro cwd flag nxt rest files h
    simp [getCurrentFilesLoop, h]
  · intro cwd arg rest files h hdash
    rw [getCurrentFilesLoop.eq_def]
    simp [h, hdash]
  · intro cwd arg rest files h hdash
    rw [getCurrentFilesLoop.eq_def]
    simp [h, hdash]

/-- Claim C4 (path identity): an absolute file name ignores the base
directory entirely; a base directory without a trailing slash joins
identically to the same base with a trailing slash appended; `"/a/b"` and
`"/a/b/"` joined with `"c.cc"` coincide, and an invocation under workspace
`"/a/b/"` updates in place an existing entry recorded under directory
`"/a/b"` instead of appending a duplicate. -/
theorem path_identity :
    (∀ base file : String, strStartsWith file "/" = true →
      JoinPath base file = file) ∧
    (∀ base file : String, strIsEmpty base = false → strEndsWith base "/" = false →
      JoinPath (base ++ "/") file = JoinPath base file) ∧
    JoinPath "/a/b" "c.cc" = JoinPath "/a/b/" "c.cc" ∧
    UpdateEntries "/a/b/" ["cc", "c.cc"]
      [{ directory := some "/a/b", arguments := none, file := some "c.cc" }] =
      [{ directory := some "/a/b", arguments := some ["cc", "c.cc"],
         file := some "c.cc" }] := by
  exact ⟨joinPath_absolute, joinPath_trailing_slash, by decide, by decide⟩

/-- Claim C5 (parser recovery policy): a read error at the I/O layer is
propagated; content the codec cannot decode yields the empty entry
sequence rather than an error (decodable content yields its entries); and
merging into the empty sequence produces exactly the entries derived from
the current invocation. -/
theorem parser_recovery :
    (∀ (e : RunErr) (decode : String → Option (List CommandEntry)),
      ParseCommandFile (Except.error e) decode = Except.error e) ∧
    (∀ (s : String) (decode : String → Option (List CommandEntry)),
      decode s = none → ParseCommandFile (Except.ok s) decode = Except.ok []) ∧
    (∀ (s : String) (decode : String → Option (List CommandEntry))
        (entries : List CommandEntry),
      decode s = some entries →
      ParseCommandFile (Except.ok s) decode = Except.ok entries) ∧
    (∀ (cwd : String) (arguments : List String),
      UpdateEntries cwd arguments [] =
        (GetCurrentFiles cwd arguments).map (newEntry cwd arguments)) := by
  refine ⟨fun e d => rfl, ?_, ?_, fun cwd arguments => rfl⟩
  · intro s d h
    simp [ParseCommandFile, h]
  · intro s d entries h
    simp [ParseCommandFile, h]

/-- Claim C6 (monotonic growth): the merge never removes an entry — the
count after is at least the count before, and it grows by exactly the
number of discovered source files whose absolute path matches no existing
entry. -/
theorem merge_monotonic_growth (cwd : String) (arguments : List String)
    (es : List CommandEntry) :
    es.length ≤ (UpdateEntries cwd arguments es).length ∧
    (UpdateEntries cwd arguments es).length =
      es.length +
        ((GetCurrentFiles cwd arguments).filter
          (fun f => !(es.any (fun e => entryMatchesPath cwd e f.absolute_path)))).length := by
  have hlen := updateEntriesLoop_length cwd arguments es (GetCurrentFiles cwd arguments)
  have hrem := updateEntriesLoop_rem_eq_filter cwd arguments es (GetCurrentFiles cwd arguments)
  constructor
  · simp only [UpdateEntries, List.length_append, hlen]
    omega
  · simp only [UpdateEntries, List.length_append, List.length_map, hlen, hrem]

/-- Claim C7 (frame property): no entry is removed (the first
`es.length` output positions correspond one-to-one to the inputs); every
scanned entry keeps its `directory` and `file` unchanged; an entry without
a `file` field is returned entirely unchanged; and an entry whose joined
absolute path is not among the discovered paths is returned entirely
unchanged. -/
theorem merge_frame_property (cwd : String) (arguments : List String)
    (es : List CommandEntry) :
    es.length ≤ (UpdateEntries cwd arguments es).length ∧
    List.Forall₂ (fun e eo =>
        eo.directory = e.directory ∧ eo.file = e.file ∧
        (e.file = none → eo = e) ∧
        (∀ fp, e.file = some fp →
          JoinPath (e.directory.getD cwd) fp ∉
            (GetCurrentFiles cwd arguments).map SourceFile.absolute_path →
          eo = e))
      es ((UpdateEntries cwd arguments es).take es.length) := by
  have hlen := updateEntriesLoop_length cwd arguments es (GetCurrentFiles cwd arguments)
  have htake : (UpdateEntries cwd arguments es).take es.length =
      (updateEntriesLoop cwd arguments es (GetCurrentFiles cwd arguments)).1 := by
    simp only [UpdateEntries]
    rw [← hlen]
    exact List.take_left _ _
  constructor
  · simp only [UpdateEntries, List.length_append, hlen]
    omega
  · rw [htake]
    exact (updateEntriesLoop_forall2 cwd arguments (GetCurrentFiles cwd arguments) es
      (GetCurrentFiles cwd arguments) (fun q hq => hq)).imp
      (fun a b h => ⟨h.1, h.2.1, h.2.2.2.1, h.2.2.2.2⟩)

/-- Claim C8 counterexample: with serialized document `"[]\n"` (three
bytes), a first `write` that persists one byte followed by a failing
`write` ends the rewrite with an error while the file at rest holds exactly
`"["` — a nonempty proper prefix of the document, i.e. partially-written
JSON persisted by a rewrite that failed partway, contradicting the claimed
all-or-nothing persistence. -/
theorem rewrite_partial_persist :
    RewriteFile ⟨true, true, [some 1, none]⟩ "[]\n" "old" =
      (Except.error RunErr.writeError, "[") ∧
    ("[" : String) ≠ "[]\n" ∧ ("[" : String) ≠ "" ∧ ("[" : String) ≠ "old" := by
  refine ⟨rfl, by decide, by decide, by decide⟩

/-- Claim C8 (amended): the rewrite is all-or-nothing only when it
completes — if truncate, seek and every write succeed, the file at rest
holds exactly the serialized document; if the rewrite fails partway the
file may be left unchanged (truncate failed), or else holds some prefix of
the document (possibly empty or short) — the accepted risk window of the
truncate-then-rewrite design. -/
theorem rewrite_all_or_nothing (io : IOBehavior) (doc prev : String) :
    ((RewriteFile io doc prev).1 = Except.ok () → (RewriteFile io doc prev).2 = doc) ∧
    ((RewriteFile io doc prev).2 = prev ∨
      ∃ t, (RewriteFile io doc prev).2.data ++ t = doc.data) :=
  ⟨rewriteFile_complete io doc prev, rewriteFile_at_rest io doc prev⟩

/-- Claim C9 (no compiler on failed update): whenever the database update
pipeline (open, lock, read, workspace lookup, or rewrite) fails, `main`
aborts on `CHECK_OK` and the compiler-replacement step is never reached;
the compiler is spawned exactly when the update succeeded. -/
theorem no_compiler_on_failed_update (env : EnvModel) (argv : List String)
    (prev : String) :
    ((UpdateCommandFile env argv prev).1.isOk = false →
      ProcEvent.spawnCompiler ∉ mainRun env argv prev ∧
      mainRun env argv prev = [ProcEvent.abortOnCheckFailure]) ∧
    ((UpdateCommandFile env argv prev).1.isOk = true →
      mainRun env argv prev = [ProcEvent.spawnCompiler]) := by
  cases h : (UpdateCommandFile env argv prev).1 with
  | error e =>
    constructor
    · intro _
      constructor
      · simp [mainRun, h]
      · simp [mainRun, h]
    · intro hc
      simp [Except.isOk, Except.toBool] at hc
  | ok u =>
    constructor
    · intro hc
      simp [Except.isOk, Except.toBool] at hc
    · intro _
      simp [mainRun, h]

/-- Claim C10 (order and deduplication of appended entries): the new
entries appear after all scanned entries, in the order of the remaining
source-file set, which is strictly increasing (hence pairwise distinct) in
absolute path; each appended entry's absolute path under the workspace
directory is exactly its set key, so at most one entry is appended per
distinct absolute path; and each appended entry's `file` field is the first
file-classified command-line token whose join with the workspace directory
yields that absolute path. -/
theorem appended_entries_order (cwd : String) (arguments : List String)
    (es : List CommandEntry) :
    UpdateEntries cwd arguments es =
      (updateEntriesLoop cwd arguments es (GetCurrentFiles cwd arguments)).1 ++
        ((updateEntriesLoop cwd arguments es (GetCurrentFiles cwd arguments)).2).map
          (newEntry cwd arguments) ∧
    ((updateEntriesLoop cwd arguments es (GetCurrentFiles cwd arguments)).2).Pairwise
      (fun a b => a.absolute_path < b.absolute_path) ∧
    ((updateEntriesLoop cwd arguments es (GetCurrentFiles cwd arguments)).2).Pairwise
      (fun a b => a.absolute_path ≠ b.absolute_path) ∧
    (∀ f ∈ (updateEntriesLoop cwd arguments es (GetCurrentFiles cwd arguments)).2,
      JoinPath cwd f.relative_path = f.absolute_path) ∧
    (∀ f ∈ (updateEntriesLoop cwd arguments es (GetCurrentFiles cwd arguments)).2,
      List.find? (fun t => JoinPath cwd t == f.absolute_path)
        (fileTokens (arguments.drop 1)) = some f.relative_path) := by
  have hsub := updateEntriesLoop_sublist cwd arguments es (GetCurrentFiles cwd arguments)
  have hpw := (getCurrentFiles_pairwise cwd arguments).sublist hsub
  refine ⟨rfl, hpw, hpw.imp (fun h => ne_of_lt h), ?_, ?_⟩
  · intro f hf
    exact getCurrentFiles_abs cwd arguments f (hsub.mem hf)
  · intro f hf
    exact getCurrentFiles_find cwd arguments f (hsub.mem hf)

/-! ### Witnesses instantiating the claim theorems at concrete inputs -/

/-- Witness for C1: in a run under workspace `/w` with files `a.cc` and
`b.cc` against a database holding one entry for `a.cc`, the matched path
`/w/a.cc` is not appended again, and the appended file `b.cc` comes from
the discovered set. -/
theorem merge_contract_witness :
    ("/w/a.cc" ∉ ((updateEntriesLoop "/w" ["cc", "a.cc", "b.cc"]
        [⟨none, none, some "a.cc"⟩]
        (GetCurrentFiles "/w" ["cc", "a.cc", "b.cc"])).2).map
      SourceFile.absolute_path) ∧
    (⟨"b.cc", "/w/b.cc"⟩ : SourceFile) ∈ GetCurrentFiles "/w" ["cc", "a.cc", "b.cc"] := by
  have h := merge_contract "/w" ["cc", "a.cc", "b.cc"] [⟨none, none, some "a.cc"⟩]
  exact ⟨h.2.2.2.1 "/w/a.cc" (by decide),
         h.2.2.2.2 ⟨"b.cc", "/w/b.cc"⟩ (by decide)⟩

/-- Witness for C3: concrete instances of the three classification rules. -/
theorem source_file_classification_witness :
    getCurrentFilesLoop "/w" ["-MF", "-x", "y.cc"] [] =
      getCurrentFilesLoop "/w" ["y.cc"] [] ∧
    getCurrentFilesLoop "/w" ["-Wall", "z.cc"] [] =
      getCurrentFilesLoop "/w" ["z.cc"] [] ∧
    getCurrentFilesLoop "/w" ["y.cc"] [] =
      getCurrentFilesLoop "/w" [] (sfInsert [] (SourceFile.make "/w" "y.cc")) := by
  have h := source_file_classification
  exact ⟨h.1 "/w" "-MF" "-x" ["y.cc"] [] (by decide),
         h.2.1 "/w" "-Wall" ["z.cc"] [] (by decide) (by decide),
         h.2.2.1 "/w" "y.cc" [] [] (by decide) (by decide)⟩

/-- Witness for C4: a concrete absolute path bypasses the base directory,
and a concrete trailing-slash base joins identically. -/
theorem path_identity_witness :
    JoinPath "/base" "/abs/x.cc" = "/abs/x.cc" ∧
    JoinPath ("/a/b" ++ "/") "c.cc" = JoinPath "/a/b" "c.cc" := by
  have h := path_identity
  exact ⟨h.1 "/base" "/abs/x.cc" (by decide),
         h.2.1 "/a/b" "c.cc" (by decide) (by decide)⟩

/-- Witness for C5: garbage content decodes to the empty sequence,
decodable content to its entries, and a read error propagates. -/
theorem parser_recovery_witness :
    ParseCommandFile (Except.ok "garbage") (fun _ => none) = Except.ok [] ∧
    ParseCommandFile (Except.ok "[]") (fun _ => some []) = Except.ok [] ∧
    ParseCommandFile (Except.error RunErr.readError) (fun _ => none) =
      Except.error RunErr.readError := by
  have h := parser_recovery
  exact ⟨h.2.1 "garbage" (fun _ => none) rfl,
         h.2.2.1 "[]" (fun _ => some []) [] rfl,
         h.1 RunErr.readError (fun _ => none)⟩

/-- Witness for C7: a database consisting of one malformed entry is not
shrunk by an update. -/
theorem merge_frame_property_witness :
    1 ≤ (UpdateEntries "/w" ["cc", "a.cc"] [⟨none, none, none⟩]).length := by
  have h := merge_frame_property "/w" ["cc", "a.cc"] [⟨none, none, none⟩]
  simpa using h.1

/-- Witness for C8 (amended): a rewrite whose single write persists all
three bytes leaves exactly the document at rest. -/
theorem rewrite_all_or_nothing_witness :
    (RewriteFile ⟨true, true, [some 3]⟩ "[]\n" "x").2 = "[]\n" := by
  have h := rewrite_all_or_nothing ⟨true, true, [some 3]⟩ "[]\n" "x"
  exact h.1 rfl

/-- Witness for C9: a run whose open step fails aborts without spawning
the compiler. -/
theorem no_compiler_on_failed_update_witness :
    ProcEvent.spawnCompiler ∉
      mainRun ⟨Except.error RunErr.openError, Except.ok (), Except.ok "",
        Except.ok "/w", "cc", fun _ => none, fun _ => "", ⟨true, true, []⟩⟩
        ["cc"] "" ∧
    mainRun ⟨Except.error RunErr.openError, Except.ok (), Except.ok "",
        Except.ok "/w", "cc", fun _ => none, fun _ => "", ⟨true, true, []⟩⟩
        ["cc"] "" = [ProcEvent.abortOnCheckFailure] := by
  have h := no_compiler_on_failed_update
    ⟨Except.error RunErr.openError, Except.ok (), Except.ok "",
      Except.ok "/w", "cc", fun _ => none, fun _ => "", ⟨true, true, []⟩⟩
    ["cc"] ""
  exact h.1 rfl

/-- Witness for C10: in a run discovering `b.cc` then `a.cc`, the appended
set element for `a.cc` has its key equal to its join and its `file` is the
first token joining to `/w/a.cc`. -/
theorem appended_entries_order_witness :
    JoinPath "/w" "a.cc" = "/w/a.cc" ∧
    List.find? (fun t => JoinPath "/w" t == "/w/a.cc")
      (fileTokens (["cc", "b.cc", "a.cc"].drop 1)) = some "a.cc" := by
  have h := appended_entries_order "/w" ["cc", "b.cc", "a.cc"] []
  exact ⟨h.2.2.2.1 ⟨"a.cc", "/w/a.cc"⟩ (by decide),
         h.2.2.2.2 ⟨"a.cc", "/w/a.cc"⟩ (by decide)⟩
